import Mathlib

/-!
# Verification of the loop-invariant code motion (LICM) pass

A shallow embedding of `compiler/noirc_evaluator/src/ssa/opt/loop_invariant.rs`.
The pass hoists loop-invariant instructions into a loop's pre-header and
strengthens checked arithmetic to unchecked arithmetic when induction-variable
bounds prove the checks superfluous.

External collaborators of the pass (the SSA instruction set's purity
classification, `eval_constant_binary_op`, the loop descriptor's pre-header /
constant-bounds queries, the CFG path enumeration and the function-inserter
rewrite engine) are not part of the analyzed sources; they are modelled from
the specification's interface contracts and marked `Modelled from the spec:`
in their doc comments.  Everything else is translated directly from the Rust
source of `loop_invariant.rs`.
-/

namespace LoopInvariant

/-- The BN254 scalar-field modulus backing `FieldElement`.
Field elements are embedded as natural numbers reduced modulo this prime. -/
def fieldModulus : Nat :=
  21888242871839275222246405745257275088548364400416034343698204186575808495617

/-- Field subtraction of `FieldElement`s (`upper_bound - lower_bound` in the
source is subtraction in the BN254 scalar field, which wraps around rather
than saturating). -/
def fieldSub (a b : Nat) : Nat :=
  (a % fieldModulus + (fieldModulus - b % fieldModulus)) % fieldModulus

/-- Numeric SSA types (`NumericType`): unsigned / signed integers of a given
bit size, and the native field. -/
inductive NumericType
  | unsigned (bitSize : Nat)
  | signed (bitSize : Nat)
  | field
  deriving DecidableEq, Repr

/-- SSA types (`Type`), keeping exactly the structure the pass inspects: the
fixed length of array types and whether a type is numeric. -/
inductive SsaType
  | numeric (t : NumericType)
  | array (len : Nat)
  | slice
  | reference
  | functionType
  deriving DecidableEq, Repr

/-- Embedding of `Type::unwrap_numeric`, made total: the source panics on non-numeric
types, which we model as `none`. -/
def SsaType.unwrapNumeric : SsaType → Option NumericType
  | .numeric t => some t
  | _ => none

/-- Binary SSA operators (`BinaryOp`).  `add`/`sub`/`mul` carry their
`unchecked` flag exactly as in the source. -/
inductive BinaryOp
  | add (unchecked : Bool)
  | sub (unchecked : Bool)
  | mul (unchecked : Bool)
  | div
  | mod
  | eq
  | lt
  | and
  | or
  | xor
  | shl
  | shr
  deriving DecidableEq, Repr

/-- Modelled from the spec: `BinaryOp::is_unchecked` — §4.4 distinguishes
operators with a checked (overflow-verifying) and an unchecked form; only
`add`/`sub`/`mul` have the distinction, every other operator counts as
unchecked (no overflow check to elide). -/
def BinaryOp.isUnchecked : BinaryOp → Bool
  | .add u => u
  | .sub u => u
  | .mul u => u
  | _ => true

/-- Modelled from the spec: `BinaryOp::into_unchecked` — rewrite an operator
to its unchecked form (§4.4); operators without a checked/unchecked
distinction are unchanged. -/
def BinaryOp.intoUnchecked : BinaryOp → BinaryOp
  | .add _ => .add true
  | .sub _ => .sub true
  | .mul _ => .mul true
  | op => op

/-- A binary instruction payload (`Binary { lhs, rhs, operator }`). -/
structure Binary where
  lhs : Nat
  rhs : Nat
  operator : BinaryOp
  deriving DecidableEq, Repr

/-- Modelled from the spec: the purity classification of the remaining
instruction kinds (§2(d)): unconditionally pure, pure only under a guarding
predicate, or really side-effecting. -/
inductive Purity
  | pure
  | pureWithPredicate
  | impure
  deriving DecidableEq, Repr

/-- SSA instructions (`Instruction`), keeping the constructors the pass
matches on.  All other instruction kinds are collapsed into `other`, which
records the values the instruction reads and its purity classification. -/
inductive Instruction
  | binary (b : Binary)
  | arrayGet (array : Nat) (index : Nat)
  | constrain (lhs : Nat) (rhs : Nat)
  | constrainNotEqual (lhs : Nat) (rhs : Nat)
  | rangeCheck (value : Nat) (maxBitSize : Nat)
  | makeArray (elements : List Nat) (typ : SsaType)
  | incrementRc (value : Nat)
  | other (values : List Nat) (purity : Purity)
  deriving DecidableEq, Repr

/-- Embedding of `Instruction::for_each_value`, reified as the list of values an
instruction reads. -/
def Instruction.values : Instruction → List Nat
  | .binary b => [b.lhs, b.rhs]
  | .arrayGet a i => [a, i]
  | .constrain l r => [l, r]
  | .constrainNotEqual l r => [l, r]
  | .rangeCheck v _ => [v]
  | .makeArray es _ => es
  | .incrementRc v => [v]
  | .other vs _ => vs

/-- Embedding of `FunctionInserter`-style value substitution applied to every value an
instruction reads (`Instruction::map_values` as used by `map_instruction`). -/
def Instruction.mapValues (f : Nat → Nat) : Instruction → Instruction
  | .binary b => .binary { b with lhs := f b.lhs, rhs := f b.rhs }
  | .arrayGet a i => .arrayGet (f a) (f i)
  | .constrain l r => .constrain (f l) (f r)
  | .constrainNotEqual l r => .constrainNotEqual (f l) (f r)
  | .rangeCheck v m => .rangeCheck (f v) m
  | .makeArray es t => .makeArray (es.map f) t
  | .incrementRc v => .incrementRc (f v)
  | .other vs p => .other (vs.map f) p

/-- Modelled from the spec: `Instruction::can_be_hoisted(function,
hoist_with_predicate)` — the purity model of §2(d)/§4.2: unconditionally pure
instructions can always be hoisted; pure-with-predicate instructions (e.g.
checked arithmetic, dynamic array reads — failure only reachable under a
guard) only when hoisting with a predicate is allowed; side-effecting
instructions (constraints, range checks, aggregate construction, reference
counting) never. -/
def Instruction.canBeHoisted (instr : Instruction) (hoistWithPredicate : Bool) : Bool :=
  match instr with
  | .binary b =>
      match b.operator with
      | .add u => u || hoistWithPredicate
      | .sub u => u || hoistWithPredicate
      | .mul u => u || hoistWithPredicate
      | .div => hoistWithPredicate
      | .mod => hoistWithPredicate
      | .shl => hoistWithPredicate
      | .shr => hoistWithPredicate
      | _ => true
  | .arrayGet _ _ => hoistWithPredicate
  | .constrain _ _ => false
  | .constrainNotEqual _ _ => false
  | .rangeCheck _ _ => false
  | .makeArray _ _ => false
  | .incrementRc _ => false
  | .other _ p =>
      match p with
      | .pure => true
      | .pureWithPredicate => hoistWithPredicate
      | .impure => false

/-- Two's-complement decoding of a `bitSize`-bit value. -/
def decodeSigned (bitSize x : Nat) : Int :=
  if x < 2 ^ (bitSize - 1) then (x : Int) else (x : Int) - 2 ^ bitSize

/-- Modelled from the spec: `eval_constant_binary_op` — §4.4 "evaluating the
operator at that extreme, using exact arithmetic for the operand's numeric
type and width, does not overflow/underflow/divide-by-zero".  Returns `none`
exactly on overflow, underflow, division/modulo by zero, or an out-of-range
shift; otherwise the evaluated constant. -/
def evalConstantBinaryOp (lhs rhs : Nat) (op : BinaryOp) (t : NumericType) : Option Nat :=
  match t with
  | .unsigned bitSize =>
      match op with
      | .add _ => if lhs + rhs < 2 ^ bitSize then some (lhs + rhs) else none
      | .sub _ => if rhs ≤ lhs then some (lhs - rhs) else none
      | .mul _ => if lhs * rhs < 2 ^ bitSize then some (lhs * rhs) else none
      | .div => if rhs = 0 then none else some (lhs / rhs)
      | .mod => if rhs = 0 then none else some (lhs % rhs)
      | .eq => some (if lhs = rhs then 1 else 0)
      | .lt => some (if lhs < rhs then 1 else 0)
      | .and => some (lhs &&& rhs)
      | .or => some (lhs ||| rhs)
      | .xor => some (lhs ^^^ rhs)
      | .shl => if rhs < bitSize ∧ lhs <<< rhs < 2 ^ bitSize then some (lhs <<< rhs) else none
      | .shr => if rhs < bitSize then some (lhs >>> rhs) else none
  | .signed bitSize =>
      let l := decodeSigned bitSize lhs
      let r := decodeSigned bitSize rhs
      let encode : Int → Option Nat := fun v =>
        if -(2 ^ (bitSize - 1) : Int) ≤ v ∧ v < 2 ^ (bitSize - 1) then
          some ((v % (2 ^ bitSize : Int)).toNat)
        else none
      match op with
      | .add _ => encode (l + r)
      | .sub _ => encode (l - r)
      | .mul _ => encode (l * r)
      | .div => if r = 0 then none else encode (Int.tdiv l r)
      | .mod => if r = 0 then none else encode (Int.tmod l r)
      | .eq => some (if lhs = rhs then 1 else 0)
      | .lt => some (if l < r then 1 else 0)
      | .and => some (lhs &&& rhs)
      | .or => some (lhs ||| rhs)
      | .xor => some (lhs ^^^ rhs)
      | .shl => if rhs < bitSize then encode (l * 2 ^ rhs) else none
      | .shr => if rhs < bitSize then encode (Int.fdiv l (2 ^ rhs)) else none
  | .field =>
      match op with
      | .add _ => some ((lhs + rhs) % fieldModulus)
      | .sub _ => some (fieldSub lhs rhs)
      | .mul _ => some (lhs * rhs % fieldModulus)
      | .div =>
          if rhs % fieldModulus = 0 then none
          else some (lhs % fieldModulus * ((rhs % fieldModulus) ^ (fieldModulus - 2)
            % fieldModulus) % fieldModulus)
      | .mod => none
      | .eq => some (if lhs % fieldModulus = rhs % fieldModulus then 1 else 0)
      | .lt => none
      | .and => none
      | .or => none
      | .xor => none
      | .shl => none
      | .shr => none

/-- The slice of the data-flow graph the pass queries: value types and
compile-time numeric constants (`dfg.type_of_value`,
`dfg.get_numeric_constant_with_type`), plus the runtime of the enclosing
function (`function.runtime().is_brillig()`). -/
structure Dfg where
  typeOfValue : Nat → SsaType
  numericConstant : Nat → Option Nat
  runtimeIsBrillig : Bool

/-- An induction-variable bounds map
(`HashMap<ValueId, (FieldElement, FieldElement)>`), embedded as an
association list: value of the induction variable ↦ (lower, upper) bound. -/
abbrev BoundsMap := List (Nat × (Nat × Nat))

/-- Embedding of `HashMap::get` on a bounds map. -/
def BoundsMap.get (m : BoundsMap) (v : Nat) : Option (Nat × Nat) :=
  List.lookup v m

/-- Embedding of `self.current_induction_variables.values().next()`: the first stored
bound pair, if any. -/
def BoundsMap.valuesNext (m : BoundsMap) : Option (Nat × Nat) :=
  m.head?.map Prod.snd

/-- The per-loop analysis state of `LoopInvariantContext` that the boolean
safety checks read. -/
structure Context where
  definedInLoop : List Nat
  loopInvariants : List Nat
  currentInductionVariables : BoundsMap
  outerInductionVariables : BoundsMap
  currentBlockControlDependent : Bool

/-- Embedding of `LoopInvariantContext::can_evaluate_binary_op`: whether a binary
operation can be evaluated at the extreme combination of a compile-time
constant operand and an induction-variable operand drawn from
`induction_vars`.  The source first calls `unwrap_numeric` on the lhs type
(a panic on non-numeric operands, modelled as `false`), then requires exactly
one constant operand and one tracked induction variable: with the constant on
the lhs it pairs it with the lower bound for `div`/`mod` (divisor must stay
non-zero) and the upper bound otherwise; with the constant on the rhs it
pairs it with the lower bound for `sub` (decreasing values approach
underflow) and the upper bound otherwise. -/
def canEvaluateBinaryOp (dfg : Dfg) (binary : Binary) (inductionVars : BoundsMap) : Bool :=
  match (dfg.typeOfValue binary.lhs).unwrapNumeric with
  | none => false
  | some operandType =>
    let lhsConst := dfg.numericConstant binary.lhs
    let rhsConst := dfg.numericConstant binary.rhs
    match lhsConst, rhsConst, inductionVars.get binary.lhs, inductionVars.get binary.rhs with
    | some lhs, none, none, some (lowerBound, upperBound) =>
        let rhs :=
          match binary.operator with
          | .div => lowerBound
          | .mod => lowerBound
          | _ => upperBound
        (evalConstantBinaryOp lhs rhs binary.operator operandType).isSome
    | none, some rhs, some (lowerBound, upperBound), none =>
        let lhs :=
          match binary.operator with
          | .sub _ => lowerBound
          | _ => upperBound
        (evalConstantBinaryOp lhs rhs binary.operator operandType).isSome
    | _, _, _, _ => false

/-- Embedding of `LoopInvariantContext::can_be_hoisted_from_loop_bounds`: the bound-aware
safety check.  An `ArrayGet` is approved when the index is a tracked *outer*
induction variable whose upper bound is at most the array's fixed length; a
`Binary` when it can be evaluated against the outer induction variables;
`Constrain`/`ConstrainNotEqual`/`RangeCheck` when the current loop's bound
difference is non-zero in the field and the block is not control-dependent;
everything else is refused. -/
def canBeHoistedFromLoopBounds (ctx : Context) (dfg : Dfg) (instr : Instruction) : Bool :=
  match instr with
  | .arrayGet array index =>
      let arrayTyp := dfg.typeOfValue array
      let upperBound := (ctx.outerInductionVariables.get index).map Prod.snd
      match arrayTyp, upperBound with
      | .array len, some upper => upper ≤ len
      | _, _ => false
  | .binary binary => canEvaluateBinaryOp dfg binary ctx.outerInductionVariables
  | .constrain _ _ | .constrainNotEqual _ _ | .rangeCheck _ _ =>
      let bounds := ctx.currentInductionVariables.valuesNext
      let doesLoopBodyExecute :=
        match bounds with
        | some (lowerBound, upperBound) => fieldSub upperBound lowerBound ≠ 0
        | none => false
      doesLoopBodyExecute && !ctx.currentBlockControlDependent
  | _ => false

/-- Embedding of `LoopInvariantContext::transform_to_unchecked_from_loop_bounds`, as a
function on the instruction stored in the data-flow graph: a binary
instruction whose operator is checked and which can be evaluated against the
*current* induction variable's bounds has its operator rewritten in place to
the unchecked form; every other instruction is left untouched. -/
def transformToUncheckedFromLoopBounds (ctx : Context) (dfg : Dfg)
    (instr : Instruction) : Instruction :=
  match instr with
  | .binary binary =>
      if binary.operator.isUnchecked
          || !canEvaluateBinaryOp dfg binary ctx.currentInductionVariables then
        .binary binary
      else
        .binary { binary with operator := binary.operator.intoUnchecked }
  | i => i

/-- Embedding of `LoopInvariantContext::can_hoist_invariant`, given the instruction with
its operands already remapped through the rewrite engine
(`map_instruction`): loop-invariance of every read value, conjoined with one
of the four hoistability routes. -/
def canHoistInvariant (ctx : Context) (dfg : Dfg) (instruction : Instruction) : Bool :=
  let isLoopInvariant := instruction.values.all fun value =>
    !ctx.definedInLoop.contains value || ctx.loopInvariants.contains value
  let canBeHoisted := instruction.canBeHoisted false
    || (match instruction with | .makeArray _ _ => true | _ => false)
    || (instruction.canBeHoisted true && !ctx.currentBlockControlDependent)
    || canBeHoistedFromLoopBounds ctx dfg instruction
  isLoopInvariant && canBeHoisted

/-! ## The structural model: rewrite engine, blocks, and loop processing -/

/-- An instruction as stored in the data-flow graph: the instruction itself
together with its result value ids (`dfg.instruction_results`). -/
structure InstrEntry where
  instr : Instruction
  results : List Nat
  deriving DecidableEq, Repr

/-- Modelled from the spec: the value-rewrite engine (`FunctionInserter`,
§6): an old-value-id → new-value-id substitution map together with a fresh-id
supply for the results of re-inserted instructions. -/
structure Inserter where
  valueMap : List (Nat × Nat)
  nextId : Nat

/-- One lookup step of the substitution map. -/
def resolveStep (m : List (Nat × Nat)) (v : Nat) : Option Nat :=
  List.lookup v m

/-- Fuelled chain-following in the substitution map. -/
def resolveFuel (m : List (Nat × Nat)) : Nat → Nat → Nat
  | 0, v => v
  | fuel + 1, v =>
      match resolveStep m v with
      | none => v
      | some w => resolveFuel m fuel w

/-- Modelled from the spec: `resolve(ValueId) → ValueId` — "follow the
current substitution" (§6).  Following is transitive (a value remapped to a
value that was itself later remapped resolves to the final id); the fuel
`valueMap.length + 1` suffices because the maps built by the pass send old
ids to strictly fresher ids. -/
def Inserter.resolve (ins : Inserter) (v : Nat) : Nat :=
  resolveFuel ins.valueMap (ins.valueMap.length + 1) v

/-- Modelled from the spec: `push_instruction(InstructionId, target_block)` —
"commit-move an instruction into `target_block`, resolving operands and
recording new result ids in the substitution map" (§6).  Returns the updated
engine and the re-inserted entry (operands resolved, fresh result ids). -/
def Inserter.pushInstruction (ins : Inserter) (e : InstrEntry) : Inserter × InstrEntry :=
  let instr' := e.instr.mapValues ins.resolve
  let newResults := (List.range e.results.length).map fun i => ins.nextId + i
  ({ valueMap := ins.valueMap ++ e.results.zip newResults,
     nextId := ins.nextId + e.results.length },
   { instr := instr', results := newResults })

/-- A basic block as the pass sees it: parameters, instruction entries, and
the list of values the terminator reads. -/
structure BlockData where
  parameters : List Nat
  instructions : List InstrEntry
  terminator : List Nat
  deriving Repr

/-- The function being optimized: its data-flow facts plus the mutable block
contents. -/
structure Func where
  dfg : Dfg
  blocks : Nat → BlockData

/-- Replace a block's instruction list. -/
def Func.setInstructions (f : Func) (b : Nat) (instrs : List InstrEntry) : Func :=
  { f with blocks := fun b' => if b' = b then { f.blocks b with instructions := instrs } else f.blocks b' }

/-- Append one instruction entry at the end of a block
(`dfg.insert_instruction_and_results(.., block, ..)` / the tail position
`push_instruction` inserts at). -/
def Func.appendInstruction (f : Func) (b : Nat) (e : InstrEntry) : Func :=
  { f with blocks := fun b' =>
      if b' = b then { f.blocks b with instructions := (f.blocks b).instructions ++ [e] }
      else f.blocks b' }

/-- Replace a block's terminator values. -/
def Func.setTerminator (f : Func) (b : Nat) (term : List Nat) : Func :=
  { f with blocks := fun b' => if b' = b then { f.blocks b with terminator := term } else f.blocks b' }

/-- The CFG as a successor map (`ControlFlowGraph`), embedded as an
association list. -/
abbrev Cfg := List (Nat × List Nat)

/-- Successors of a block in the CFG. -/
def cfgSuccessors (cfg : Cfg) (b : Nat) : List Nat :=
  (List.lookup b cfg).getD []

/-- Fuelled forward closure used to enumerate reachable blocks. -/
def reachAux (cfg : Cfg) : Nat → List Nat → List Nat
  | 0, acc => acc
  | fuel + 1, acc =>
      let next := ((acc.flatMap (cfgSuccessors cfg)).filter fun b => ¬ acc.contains b).dedup
      if next.isEmpty then acc else reachAux cfg fuel (acc ++ next)

/-- Blocks reachable from `src` in the CFG. -/
def reachable (cfg : Cfg) (src : Nat) : List Nat :=
  reachAux cfg ((cfg.flatMap fun p => p.2.length :: []).sum + cfg.length + 1) [src]

/-- Modelled from the spec: `Loop::find_blocks_in_loop(header, block, cfg)` —
§4.1: "computes the set of all blocks lying on some path from the loop header
to `block`": the blocks reachable from the header from which `block` is
reachable. -/
def findBlocksInLoop (cfg : Cfg) (header block : Nat) : List Nat :=
  (reachable cfg header).filter fun b => (reachable cfg b).contains block

/-- The loop descriptor consumed from the loop-discovery collaborator (§6):
member blocks, header, the fallible pre-header lookup, and the raw
statically-knowable bound pair for the loop's induction variable. -/
structure LoopDesc where
  header : Nat
  blocks : List Nat
  preHeaderResult : Option Nat
  constBoundsRaw : Option (Nat × Nat)

/-- Embedding of `Loop::get_induction_variable`:
`function.dfg.block_parameters(self.header)[0]`.  Indexing an empty
parameter list panics in the source; the panic is modelled as `none`. -/
def getInductionVariable (f : Func) (loop : LoopDesc) : Option Nat :=
  (f.blocks loop.header).parameters.head?

/-- Modelled from the spec: `Loop::get_const_bounds(function, pre_header) →
Option<(Constant, Constant)>` (§6) — "when statically knowable — constant
lower/upper bounds on the induction variable" (§3).  The bounds are bounds on
the induction variable, which is the first block parameter of the header
(§3); a header without parameters has no induction variable to bound, so no
bounds are statically knowable for it. -/
def getConstBounds (f : Func) (loop : LoopDesc) : Option (Nat × Nat) :=
  match (f.blocks loop.header).parameters with
  | [] => none
  | _ :: _ => loop.constBoundsRaw

/-- Embedding of `HashMap::insert` on a bounds map: a single entry per key. -/
def BoundsMap.insert (m : BoundsMap) (k : Nat) (v : Nat × Nat) : BoundsMap :=
  (k, v) :: m.filter fun p => p.1 ≠ k

/-- The full state of `LoopInvariantContext`: the per-loop analysis fields
(`Context`), the rewrite engine, the function, the current pre-header, the
CFG and the precomputed post-dominance frontiers. -/
structure PassState extends Context where
  func : Func
  inserter : Inserter
  currentPreHeader : Option Nat
  cfg : Cfg
  postDomFrontiers : List (Nat × List Nat)

/-- Embedding of `LoopInvariantContext::is_control_dependent`: `parent ∈ PDF(block)`,
false when `block` has no recorded frontier. -/
def isControlDependent (postDomFrontiers : List (Nat × List Nat))
    (parentBlock block : Nat) : Bool :=
  match List.lookup block postDomFrontiers with
  | some dependentBlocks => dependentBlocks.contains parentBlock
  | none => false

/-- Embedding of `LoopInvariantContext::is_control_dependent_post_pre_header`: sets the
sticky flag when `block` is control-dependent on any block on a path from the
loop header to `block`, excluding `block` and the header themselves. -/
def isControlDependentPostPreHeader (st : PassState) (loop : LoopDesc)
    (block : Nat) : PassState :=
  let allPredecessors := findBlocksInLoop st.cfg loop.header block
  if allPredecessors.any fun predecessor =>
      predecessor ≠ block && predecessor ≠ loop.header
        && isControlDependent st.postDomFrontiers predecessor block then
    { st with currentBlockControlDependent := true }
  else
    st

/-- Embedding of `LoopInvariantContext::set_induction_var_bounds`: record the loop's
constant bounds for its (resolved) induction variable, in the current map or
the outer map.  When the bounds are known the source indexes the header's
first parameter, panicking if there is none; the panic branch is modelled by
leaving the state unchanged (claim C10 shows it is unreachable). -/
def setInductionVarBounds (st : PassState) (loop : LoopDesc) (currentLoop : Bool) : PassState :=
  match getConstBounds st.func loop with
  | some (lowerBound, upperBound) =>
      match getInductionVariable st.func loop with
      | some inductionVariable =>
          let inductionVariable := st.inserter.resolve inductionVariable
          if currentLoop then
            { st with currentInductionVariables :=
                st.currentInductionVariables.insert inductionVariable (lowerBound, upperBound) }
          else
            { st with outerInductionVariables :=
                st.outerInductionVariables.insert inductionVariable (lowerBound, upperBound) }
      | none => st
  | none => st

/-- Embedding of `LoopInvariantContext::set_values_defined_in_loop`: clear the per-loop
state, record the current loop's induction-variable bounds, reset the sticky
control-dependence flag, and gather every block parameter and instruction
result of the loop's blocks. -/
def setValuesDefinedInLoop (st : PassState) (loop : LoopDesc) : PassState :=
  let st := { st with definedInLoop := [], loopInvariants := [], currentInductionVariables := [] }
  let st := setInductionVarBounds st loop true
  let st := { st with currentBlockControlDependent := false }
  { st with definedInLoop :=
      loop.blocks.foldl (fun acc block =>
        acc ++ (st.func.blocks block).parameters
          ++ (st.func.blocks block).instructions.flatMap (·.results)) st.definedInLoop }

/-- Embedding of `LoopInvariantContext::extend_values_defined_in_loop_and_invariants`:
after re-inserting an instruction, add its resolved result ids to
`defined_in_loop` and, when hoisted, to `loop_invariants`. -/
def extendValuesDefinedInLoopAndInvariants (st : PassState) (results : List Nat)
    (hoistInvariant : Bool) : PassState :=
  let resolved := results.map st.inserter.resolve
  let st := { st with definedInLoop := st.definedInLoop ++ resolved }
  if hoistInvariant then { st with loopInvariants := st.loopInvariants ++ resolved } else st

/-- Commit an entry into a target block through the rewrite engine
(`self.inserter.push_instruction(instruction_id, target)`). -/
def PassState.pushInstructionTo (st : PassState) (e : InstrEntry) (target : Nat) : PassState :=
  let (inserter', e') := st.inserter.pushInstruction e
  { st with inserter := inserter', func := st.func.appendInstruction target e' }

/-- Whether an instruction is a `MakeArray` (the shape test
`matches!(.., Instruction::MakeArray { .. })`). -/
def Instruction.isMakeArray : Instruction → Bool
  | .makeArray _ _ => true
  | _ => false

/-- The body of the instruction loop of
`LoopInvariantContext::hoist_loop_invariants`: strengthen the instruction,
classify it, re-insert it into the pre-header or its original block, add the
brillig `IncrementRc` after a hoisted `MakeArray`, and update the per-loop
value sets.  `pre_header()` panics when the pre-header is unset; it is always
set by the caller and modelled with a default of `0` here. -/
def processInstruction (st : PassState) (block : Nat) (e : InstrEntry) : PassState :=
  let e := { e with instr := transformToUncheckedFromLoopBounds st.toContext st.func.dfg e.instr }
  let mapped := e.instr.mapValues st.inserter.resolve
  let hoistInvariant := canHoistInvariant st.toContext st.func.dfg mapped
  let st' :=
    if hoistInvariant then
      let stH := st.pushInstructionTo e (st.currentPreHeader.getD 0)
      if stH.func.dfg.runtimeIsBrillig && e.instr.isMakeArray then
        let incRc : InstrEntry := { instr := .incrementRc (e.results.headD 0), results := [] }
        { stH with func := stH.func.appendInstruction block incRc }
      else stH
    else
      st.pushInstructionTo e block
  extendValuesDefinedInLoopAndInvariants st' e.results hoistInvariant

/-- One iteration of the block loop of
`LoopInvariantContext::hoist_loop_invariants`: update the control-dependence
flag for the block, take its instructions, and process each in order. -/
def processBlock (st : PassState) (loop : LoopDesc) (block : Nat) : PassState :=
  let st := isControlDependentPostPreHeader st loop block
  let entries := (st.func.blocks block).instructions
  let st := { st with func := st.func.setInstructions block [] }
  entries.foldl (fun s e => processInstruction s block e) st

/-- Embedding of `LoopInvariantContext::hoist_loop_invariants` (per loop): initialize the
per-loop state, process every loop block, then record the loop's bounds for
enclosing use in `outer_induction_variables`. -/
def hoistLoopInvariantsForLoop (st : PassState) (loop : LoopDesc) : PassState :=
  let st := setValuesDefinedInLoop st loop
  let st := loop.blocks.foldl (fun s b => processBlock s loop b) st
  setInductionVarBounds st loop false

/-- One iteration of the worklist loop of `Loops::hoist_loop_invariants`:
a loop whose pre-header lookup fails is skipped entirely; otherwise the
pre-header is recorded and the loop processed. -/
def processOneLoop (st : PassState) (loop : LoopDesc) : PassState :=
  match loop.preHeaderResult with
  | none => st
  | some preHeader => hoistLoopInvariantsForLoop { st with currentPreHeader := some preHeader } loop

/-- The worklist loop of `Loops::hoist_loop_invariants`: loops are popped
from the top of `yet_to_unroll` (the end of the list), outermost first. -/
def processLoops (st : PassState) (yetToUnroll : List LoopDesc) : PassState :=
  yetToUnroll.reverse.foldl processOneLoop st

/-- Embedding of `FunctionInserter::map_terminator_in_place`: resolve every value the
block's terminator reads. -/
def mapTerminatorInPlace (st : PassState) (block : Nat) : PassState :=
  { st with func :=
      st.func.setTerminator block ((st.func.blocks block).terminator.map st.inserter.resolve) }

/-- One block of `LoopInvariantContext::map_dependent_instructions`: take the
block's instructions, re-insert each into the same block through the rewrite
engine, then remap the terminator. -/
def mapBlockDependent (st : PassState) (block : Nat) : PassState :=
  let entries := (st.func.blocks block).instructions
  let st := { st with func := st.func.setInstructions block [] }
  let st := entries.foldl (fun s e => s.pushInstructionTo e block) st
  mapTerminatorInPlace st block

/-- Embedding of `LoopInvariantContext::map_dependent_instructions`: revisit every block
in reverse post-order (`blockOrder`, supplied by the external `PostOrder`
utility, reversed). -/
def mapDependentInstructions (st : PassState) (blockOrder : List Nat) : PassState :=
  blockOrder.foldl mapBlockDependent st

/-- Embedding of `Loops::hoist_loop_invariants`, whole: process the loop worklist then
run the global consistency pass over all blocks. -/
def hoistLoopInvariants (st : PassState) (yetToUnroll : List LoopDesc)
    (blockOrder : List Nat) : PassState :=
  mapDependentInstructions (processLoops st yetToUnroll) blockOrder

/-- Sequential re-insertion of a list of entries through the rewrite engine
(the instruction loop of `map_dependent_instructions`, viewed as a function
of the engine state). -/
def Inserter.pushEntries (ins : Inserter) : List InstrEntry → Inserter × List InstrEntry
  | [] => (ins, [])
  | e :: es =>
      let r1 := ins.pushInstruction e
      let r2 := r1.1.pushEntries es
      (r2.1, r1.2 :: r2.2)

/-- A substitution map that sends every old id to a strictly larger id — the
shape of the maps the pass builds, since results are remapped to freshly
allocated ids. -/
def Inserter.Increasing (ins : Inserter) : Prop :=
  ∀ p ∈ ins.valueMap, p.1 < p.2

/-- All keys and images of the substitution map lie below the fresh-id
supply. -/
def Inserter.BoundedBy (ins : Inserter) : Prop :=
  ∀ p ∈ ins.valueMap, p.1 < ins.nextId ∧ p.2 < ins.nextId

/-- Every instruction result stored anywhere in the function lies below the
fresh-id supply. -/
def ResultsBounded (s : PassState) : Prop :=
  ∀ c : Nat, ∀ e ∈ (s.func.blocks c).instructions, ∀ r ∈ e.results,
    r < s.inserter.nextId

/-- The rewrite-engine well-formedness invariant carried through the global
consistency pass. -/
def StateWF (s : PassState) : Prop :=
  s.inserter.Increasing ∧ s.inserter.BoundedBy ∧ ResultsBounded s

/-- Every value id a block's content mentions: instruction operands and the
terminator's values. -/
def blockValues (bd : BlockData) : List Nat :=
  bd.instructions.flatMap (fun e => e.instr.values) ++ bd.terminator



/-! ## Concrete inputs used by the claim witnesses and counterexamples -/

/-- A data-flow graph where value `0` is an array of fixed length `5`, every
other value is a `u32`, and no value is a compile-time constant. -/
def c1Dfg : Dfg where
  typeOfValue := fun v => if v = 0 then .array 5 else .numeric (.unsigned 32)
  numericConstant := fun _ => none
  runtimeIsBrillig := true

/-- An analysis state in which value `1` is the *current* loop's induction
variable with statically known constant bounds `(0, 4)`, and no outer bounds
are recorded. -/
def c1Ctx : Context where
  definedInLoop := []
  loopInvariants := []
  currentInductionVariables := [(1, (0, 4))]
  outerInductionVariables := []
  currentBlockControlDependent := false

/-- A data-flow graph where every value is a `u32` and none is constant. -/
def c2Dfg : Dfg where
  typeOfValue := fun _ => .numeric (.unsigned 32)
  numericConstant := fun _ => none
  runtimeIsBrillig := true

/-- An analysis state whose current loop has *inverted* constant bounds:
lower bound `5`, upper bound `4`.  Such a loop never executes its body (the
induction variable starts at `5` and the header comparison `lt 5 4` is
false). -/
def c2Ctx : Context where
  definedInLoop := []
  loopInvariants := []
  currentInductionVariables := [(1, (5, 4))]
  outerInductionVariables := []
  currentBlockControlDependent := false

/-- A data-flow graph of `u32` values where value `1` is the constant `1`. -/
def c3Dfg : Dfg where
  typeOfValue := fun _ => .numeric (.unsigned 32)
  numericConstant := fun v => if v = 1 then some 1 else none
  runtimeIsBrillig := false

/-- A state whose current loop's induction variable is value `0` with
bounds `(1, 4)`. -/
def c3Ctx : Context where
  definedInLoop := []
  loopInvariants := []
  currentInductionVariables := [(0, (1, 4))]
  outerInductionVariables := []
  currentBlockControlDependent := false

/-- The all-`u32` data-flow graph of a non-brillig function (for witnesses). -/
def c4Dfg : Dfg where
  typeOfValue := fun _ => .numeric (.unsigned 32)
  numericConstant := fun _ => none
  runtimeIsBrillig := false

/-- An empty basic block (for witnesses). -/
def c4EmptyBlock : BlockData where
  parameters := []
  instructions := []
  terminator := []

/-- A concrete pass state with pre-header block `9`. -/
def c4St : PassState where
  definedInLoop := []
  loopInvariants := []
  currentInductionVariables := []
  outerInductionVariables := []
  currentBlockControlDependent := false
  func := { dfg := c4Dfg, blocks := fun _ => c4EmptyBlock }
  inserter := { valueMap := [], nextId := 100 }
  currentPreHeader := some 9
  cfg := []
  postDomFrontiers := []

/-- An unconditionally pure instruction with result id `50`. -/
def c4Entry : InstrEntry := ⟨.other [] .pure, [50]⟩

/-- A data-flow graph of a brillig (reference-counted) function. -/
def c8Dfg : Dfg where
  typeOfValue := fun _ => .numeric (.unsigned 32)
  numericConstant := fun _ => none
  runtimeIsBrillig := true

/-- A concrete brillig pass state with pre-header block `9`. -/
def c8St : PassState where
  definedInLoop := []
  loopInvariants := []
  currentInductionVariables := []
  outerInductionVariables := []
  currentBlockControlDependent := false
  func := { dfg := c8Dfg, blocks := fun _ => c4EmptyBlock }
  inserter := { valueMap := [], nextId := 100 }
  currentPreHeader := some 9
  cfg := []
  postDomFrontiers := []

/-- A `MakeArray` instruction with result id `50`. -/
def c8Entry : InstrEntry := ⟨.makeArray [] (.array 0), [50]⟩

/-- The all-`u32` data-flow graph of a non-brillig function. -/
def plainDfg : Dfg where
  typeOfValue := fun _ => .numeric (.unsigned 32)
  numericConstant := fun _ => none
  runtimeIsBrillig := false

/-- An empty basic block. -/
def emptyBlock : BlockData where
  parameters := []
  instructions := []
  terminator := []

/-- A pass state over a function with all-empty blocks. -/
def c6St : PassState where
  definedInLoop := []
  loopInvariants := []
  currentInductionVariables := []
  outerInductionVariables := []
  currentBlockControlDependent := false
  func := { dfg := plainDfg, blocks := fun _ => emptyBlock }
  inserter := { valueMap := [], nextId := 100 }
  currentPreHeader := none
  cfg := []
  postDomFrontiers := []

/-- A loop whose pre-header lookup failed. -/
def c6Loop : LoopDesc where
  header := 1
  blocks := [1, 2]
  preHeaderResult := none
  constBoundsRaw := none

/-- A data-flow graph where value `1` is the `u32` constant `1`. -/
def c7Dfg : Dfg where
  typeOfValue := fun _ => .numeric (.unsigned 32)
  numericConstant := fun v => if v = 1 then some 1 else none
  runtimeIsBrillig := true

/-- A state whose current loop's induction variable is value `0` with
bounds `(0, 4)`. -/
def c7Ctx : Context where
  definedInLoop := []
  loopInvariants := []
  currentInductionVariables := [(0, (0, 4))]
  outerInductionVariables := []
  currentBlockControlDependent := false

/-- A block holding one instruction (operands `3`, `4`, result `5`) and a
terminator reading `5`. -/
def c9Block : BlockData where
  parameters := []
  instructions := [⟨.binary ⟨3, 4, .add true⟩, [5]⟩]
  terminator := [5]

/-- A state whose loop phase left the substitution `3 ↦ 7` behind, with
block `2` still holding an instruction that reads the stale id `3`. -/
def c9St : PassState where
  definedInLoop := []
  loopInvariants := []
  currentInductionVariables := []
  outerInductionVariables := []
  currentBlockControlDependent := false
  func := { dfg := c4Dfg, blocks := fun b => if b = 2 then c9Block else c4EmptyBlock }
  inserter := { valueMap := [(3, 7)], nextId := 100 }
  currentPreHeader := none
  cfg := []
  postDomFrontiers := []

/-- A function whose every block has the single parameter `7`. -/
def c10Func : Func where
  dfg := plainDfg
  blocks := fun _ => { parameters := [7], instructions := [], terminator := [] }

/-- A loop with statically known bounds `(0, 4)`. -/
def c10Loop : LoopDesc where
  header := 0
  blocks := [0]
  preHeaderResult := some 9
  constBoundsRaw := some (0, 4)

/-! ## General lemmas about the embedding -/

/-- Rewriting an operator to its unchecked form is the identity on operators
that are already unchecked. -/
theorem BinaryOp.intoUnchecked_of_isUnchecked {op : BinaryOp} (h : op.isUnchecked = true) :
    op.intoUnchecked = op := by
  cases op <;> simp_all [BinaryOp.isUnchecked, BinaryOp.intoUnchecked]

/-- The unchecked form of an operator is unchecked. -/
theorem BinaryOp.isUnchecked_intoUnchecked (op : BinaryOp) :
    op.intoUnchecked.isUnchecked = true := by
  cases op <;> rfl

/-- Value substitution commutes with collecting an instruction's values. -/
theorem Instruction.values_mapValues (instr : Instruction) (f : Nat → Nat) :
    (instr.mapValues f).values = instr.values.map f := by
  cases instr <;> simp [Instruction.mapValues, Instruction.values]

/-- The inline `matches!`-style shape test in `can_hoist_invariant` agrees
with `Instruction.isMakeArray`. -/
theorem isMakeArray_match (i : Instruction) :
    (match i with | Instruction.makeArray _ _ => true | _ => false) = i.isMakeArray := by
  cases i <;> rfl

/-! ## Claim C1 -/



/-- C1, counterexample: an array read `v0[v1]` whose index `v1` is the
current loop's own induction variable, with known bounds `(0, 4)` and upper
bound `4 ≤ 5` (the array's fixed length), is NOT approved by the bound-aware
safety check — the check only consults the outer-loop bounds map, so the
claim's "the current loop's own" case fails on the code. -/
theorem c1_current_induction_variable_not_approved :
    c1Ctx.currentInductionVariables.get 1 = some (0, 4) ∧
    c1Dfg.typeOfValue 0 = SsaType.array 5 ∧ (4 : Nat) ≤ 5 ∧
    canBeHoistedFromLoopBounds c1Ctx c1Dfg (.arrayGet 0 1) = false := by
  refine ⟨rfl, rfl, by decide, rfl⟩

/-- C1 (amended): the bound-aware safety check approves an indexed array
read for hoisting if and only if the index is an induction variable recorded
in the outer-loop bounds map (an enclosing — or earlier-finished — loop's
induction variable, never the current loop's own) with statically known
constant bounds whose upper bound is at most the array's fixed length. -/
theorem c1_array_get_approved_iff (ctx : Context) (dfg : Dfg) (array index : Nat) :
    canBeHoistedFromLoopBounds ctx dfg (.arrayGet array index) = true ↔
      ∃ len lowerBound upperBound,
        dfg.typeOfValue array = SsaType.array len ∧
        ctx.outerInductionVariables.get index = some (lowerBound, upperBound) ∧
        upperBound ≤ len := by
  simp only [canBeHoistedFromLoopBounds]
  rcases h1 : ctx.outerInductionVariables.get index with _ | ⟨lb, ub⟩ <;>
    rcases h2 : dfg.typeOfValue array with t | len <;>
      simp_all [Option.map]
  exact ⟨fun h => ⟨lb, ub, ⟨rfl, rfl⟩, h⟩, fun ⟨x, y, ⟨hx, hy⟩, h⟩ => hy ▸ h⟩

/-! ## Claim C2 -/



/-- C2, the failing input evaluated: with inverted bounds `(5, 4)` — a loop
whose body never executes — the source still approves hoisting a `Constrain`
out of the loop, because it tests non-emptiness as `upper - lower ≠ 0` in the
BN254 scalar field, where `4 - 5` wraps to a non-zero element; the claim
(and the pass's own comment, which forbids hoisting out of a loop that never
executes) requires `lower < upper`, which fails here. -/
theorem c2_inverted_bounds_approved :
    canBeHoistedFromLoopBounds c2Ctx c2Dfg (.constrain 2 3) = true ∧ ¬ (5 : Nat) < 4 := by
  constructor
  · decide
  · decide

/-! ## Claim C3 -/

/-- The strengthening of a binary instruction rewrites its operator to the
unchecked form exactly when the evaluation against the current induction
variables succeeds. -/
theorem transform_binary_eq_ite (ctx : Context) (dfg : Dfg) (b : Binary) :
    transformToUncheckedFromLoopBounds ctx dfg (.binary b)
      = .binary { b with operator :=
          if canEvaluateBinaryOp dfg b ctx.currentInductionVariables then
            b.operator.intoUnchecked
          else b.operator } := by
  by_cases hu : b.operator.isUnchecked = true
  · simp [transformToUncheckedFromLoopBounds, hu, BinaryOp.intoUnchecked_of_isUnchecked hu]
  · by_cases he : canEvaluateBinaryOp dfg b ctx.currentInductionVariables = true
    · simp [transformToUncheckedFromLoopBounds, hu, he]
    · simp [transformToUncheckedFromLoopBounds, hu, he]

/-- Evaluating `can_evaluate_binary_op` with the induction variable on the left-hand
side and the constant on the right: the left operand is the lower bound for
subtraction and the upper bound otherwise. -/
theorem canEval_induction_var_lhs (ctx : Context) (dfg : Dfg) (b : Binary)
    (t : NumericType) (c lowerBound upperBound : Nat)
    (ht : (dfg.typeOfValue b.lhs).unwrapNumeric = some t)
    (h1 : dfg.numericConstant b.lhs = none)
    (h2 : dfg.numericConstant b.rhs = some c)
    (h3 : ctx.currentInductionVariables.get b.lhs = some (lowerBound, upperBound))
    (h4 : ctx.currentInductionVariables.get b.rhs = none) :
    canEvaluateBinaryOp dfg b ctx.currentInductionVariables
      = (evalConstantBinaryOp
          (match b.operator with | .sub _ => lowerBound | _ => upperBound)
          c b.operator t).isSome := by
  simp only [canEvaluateBinaryOp, ht, h1, h2, h3, h4]

/-- Evaluating `can_evaluate_binary_op` with the constant on the left-hand side and the
induction variable on the right: the right operand is the lower bound for
division/modulo and the upper bound otherwise. -/
theorem canEval_induction_var_rhs (ctx : Context) (dfg : Dfg) (b : Binary)
    (t : NumericType) (c lowerBound upperBound : Nat)
    (ht : (dfg.typeOfValue b.lhs).unwrapNumeric = some t)
    (h1 : dfg.numericConstant b.lhs = some c)
    (h2 : dfg.numericConstant b.rhs = none)
    (h3 : ctx.currentInductionVariables.get b.lhs = none)
    (h4 : ctx.currentInductionVariables.get b.rhs = some (lowerBound, upperBound)) :
    canEvaluateBinaryOp dfg b ctx.currentInductionVariables
      = (evalConstantBinaryOp c
          (match b.operator with | .div => lowerBound | .mod => lowerBound | _ => upperBound)
          b.operator t).isSome := by
  simp only [canEvaluateBinaryOp, ht, h1, h2, h3, h4]

/-- C3: for a binary instruction with one compile-time-constant operand and
the current loop's induction variable as the other, the operator is
rewritten in place to its unchecked form exactly when evaluating it at the
extreme operand combination (the upper bound for addition/multiplication,
the lower bound for subtraction with the induction variable on the left,
the lower bound for division/modulo with the induction variable as divisor)
in the operand's numeric type succeeds; and the rewrite is applied to the
instruction before invariance classification, landing in the pre-header or
the original block identically transformed, independent of the hoisting
decision. -/
theorem c3_unchecked_rewrite_at_extremes :
    (∀ (ctx : Context) (dfg : Dfg) (b : Binary) (t : NumericType)
        (c lowerBound upperBound : Nat),
      (dfg.typeOfValue b.lhs).unwrapNumeric = some t →
      dfg.numericConstant b.lhs = none →
      dfg.numericConstant b.rhs = some c →
      ctx.currentInductionVariables.get b.lhs = some (lowerBound, upperBound) →
      ctx.currentInductionVariables.get b.rhs = none →
      transformToUncheckedFromLoopBounds ctx dfg (.binary b)
        = .binary { b with operator :=
            if (evalConstantBinaryOp
                  (match b.operator with | .sub _ => lowerBound | _ => upperBound)
                  c b.operator t).isSome then
              b.operator.intoUnchecked
            else b.operator }) ∧
    (∀ (ctx : Context) (dfg : Dfg) (b : Binary) (t : NumericType)
        (c lowerBound upperBound : Nat),
      (dfg.typeOfValue b.lhs).unwrapNumeric = some t →
      dfg.numericConstant b.lhs = some c →
      dfg.numericConstant b.rhs = none →
      ctx.currentInductionVariables.get b.lhs = none →
      ctx.currentInductionVariables.get b.rhs = some (lowerBound, upperBound) →
      transformToUncheckedFromLoopBounds ctx dfg (.binary b)
        = .binary { b with operator :=
            if (evalConstantBinaryOp c
                  (match b.operator with | .div => lowerBound | .mod => lowerBound | _ => upperBound)
                  b.operator t).isSome then
              b.operator.intoUnchecked
            else b.operator }) ∧
    (∀ (st : PassState) (block : Nat) (b : Binary) (results : List Nat) (ph : Nat),
      st.currentPreHeader = some ph →
      let instr' := transformToUncheckedFromLoopBounds st.toContext st.func.dfg (.binary b)
      let mapped := instr'.mapValues st.inserter.resolve
      let hoisted := canHoistInvariant st.toContext st.func.dfg mapped
      let target := if hoisted then ph else block
      ((processInstruction st block ⟨.binary b, results⟩).func.blocks target).instructions
        = (st.func.blocks target).instructions
            ++ [⟨mapped, (List.range results.length).map fun i => st.inserter.nextId + i⟩]) := by
  refine ⟨?_, ?_, ?_⟩
  · intro ctx dfg b t c lowerBound upperBound ht h1 h2 h3 h4
    rw [transform_binary_eq_ite, canEval_induction_var_lhs ctx dfg b t c lowerBound upperBound
      ht h1 h2 h3 h4]
  · intro ctx dfg b t c lowerBound upperBound ht h1 h2 h3 h4
    rw [transform_binary_eq_ite, canEval_induction_var_rhs ctx dfg b t c lowerBound upperBound
      ht h1 h2 h3 h4]
  · intro st block b results ph hp
    simp only
    rw [transform_binary_eq_ite]
    simp only [processInstruction, transform_binary_eq_ite, hp, Option.getD_some]
    generalize (if canEvaluateBinaryOp st.func.dfg b st.currentInductionVariables = true then
        b.operator.intoUnchecked else b.operator) = opT
    cases hh : canHoistInvariant st.toContext st.func.dfg
        ((Instruction.binary { b with operator := opT }).mapValues st.inserter.resolve) with
    | true =>
        simp [hh, extendValuesDefinedInLoopAndInvariants, PassState.pushInstructionTo,
          Inserter.pushInstruction, Func.appendInstruction, Instruction.isMakeArray,
          Instruction.mapValues]
    | false =>
        simp [hh, extendValuesDefinedInLoopAndInvariants, PassState.pushInstructionTo,
          Inserter.pushInstruction, Func.appendInstruction, Instruction.isMakeArray,
          Instruction.mapValues]



/-- C3, witness: `sub v0, u32 1` with induction variable `v0` on the
left-hand side and bounds `(1, 4)` is evaluated at the lower bound `1`. -/
theorem c3_witness :
    transformToUncheckedFromLoopBounds c3Ctx c3Dfg (.binary ⟨0, 1, .sub false⟩)
      = .binary ⟨0, 1,
          if (evalConstantBinaryOp
                (match BinaryOp.sub false with | .sub _ => (1 : Nat) | _ => 4)
                1 (.sub false) (.unsigned 32)).isSome then
            (BinaryOp.sub false).intoUnchecked
          else BinaryOp.sub false⟩ :=
  c3_unchecked_rewrite_at_extremes.1 c3Ctx c3Dfg ⟨0, 1, .sub false⟩ (.unsigned 32) 1 1 4
    rfl (by decide) (by decide) (by decide) (by decide)

/-! ## Claim C4 -/

/-- C4: (first conjunct) `can_hoist_invariant` holds iff every value the
instruction reads is absent from `defined_in_loop` or present in
`loop_invariants`, and one of the four hoistability routes applies:
unconditionally pure, `MakeArray`, pure-with-predicate in a
non-control-dependent position, or approved by the bound-aware safety check.
(Second conjunct) an approved instruction is re-inserted into the loop's
pre-header and a refused one into its original block, and the resolved
result ids are added to `defined_in_loop` and, when hoisted, to
`loop_invariants`. -/
theorem c4_classification_and_placement :
    (∀ (ctx : Context) (dfg : Dfg) (instruction : Instruction),
        canHoistInvariant ctx dfg instruction = true ↔
          ((∀ v ∈ instruction.values,
              v ∉ ctx.definedInLoop ∨ v ∈ ctx.loopInvariants) ∧
            (instruction.canBeHoisted false = true ∨
              instruction.isMakeArray = true ∨
              (instruction.canBeHoisted true = true ∧
                ctx.currentBlockControlDependent = false) ∨
              canBeHoistedFromLoopBounds ctx dfg instruction = true))) ∧
    (∀ (st : PassState) (block : Nat) (e : InstrEntry) (ph : Nat),
        st.currentPreHeader = some ph → ph ≠ block →
        let instr' := transformToUncheckedFromLoopBounds st.toContext st.func.dfg e.instr
        let mapped := instr'.mapValues st.inserter.resolve
        let hoisted := canHoistInvariant st.toContext st.func.dfg mapped
        let st2 := processInstruction st block e
        let pushed : InstrEntry :=
          ⟨mapped, (List.range e.results.length).map fun i => st.inserter.nextId + i⟩
        (hoisted = true →
            (st2.func.blocks ph).instructions
              = (st.func.blocks ph).instructions ++ [pushed]) ∧
        (hoisted = false →
            (st2.func.blocks block).instructions
                = (st.func.blocks block).instructions ++ [pushed] ∧
              st2.func.blocks ph = st.func.blocks ph) ∧
        st2.definedInLoop = st.definedInLoop ++ e.results.map st2.inserter.resolve ∧
        st2.loopInvariants =
          (if hoisted then st.loopInvariants ++ e.results.map st2.inserter.resolve
           else st.loopInvariants)) := by
  constructor
  · intro ctx dfg instruction
    simp only [canHoistInvariant, isMakeArray_match, Bool.and_eq_true, List.all_eq_true,
      Bool.or_eq_true, Bool.not_eq_true']
    constructor
    · rintro ⟨h1, h2⟩
      refine ⟨fun v hv => ?_, ?_⟩
      · rcases h1 v hv with h | h
        · exact Or.inl (by simpa using h)
        · exact Or.inr (by simpa using h)
      · tauto
    · rintro ⟨h1, h2⟩
      refine ⟨fun v hv => ?_, ?_⟩
      · rcases h1 v hv with h | h
        · exact Or.inl (by simpa using h)
        · exact Or.inr (by simpa using h)
      · tauto
  · intro st block e ph hp hne
    simp only
    simp only [processInstruction, hp, Option.getD_some]
    cases hh : canHoistInvariant st.toContext st.func.dfg
        ((transformToUncheckedFromLoopBounds st.toContext st.func.dfg e.instr).mapValues
          st.inserter.resolve) with
    | false =>
        simp [hh, extendValuesDefinedInLoopAndInvariants, PassState.pushInstructionTo,
          Inserter.pushInstruction, Func.appendInstruction, hne, Ne.symm hne]
    | true =>
        cases hmk : (st.func.dfg.runtimeIsBrillig
            && (transformToUncheckedFromLoopBounds st.toContext st.func.dfg
                e.instr).isMakeArray) with
        | false =>
            simp [hh, extendValuesDefinedInLoopAndInvariants, PassState.pushInstructionTo,
              Inserter.pushInstruction, Func.appendInstruction, hne, Ne.symm hne, hmk]
        | true =>
            simp only [Bool.and_eq_true] at hmk
            simp [hh, extendValuesDefinedInLoopAndInvariants, PassState.pushInstructionTo,
              Inserter.pushInstruction, Func.appendInstruction, hne, Ne.symm hne,
              hmk.1, hmk.2]





/-- C4, witness: a pure instruction with no operands is classified hoistable
and lands in the pre-header block `9`, not its original block `3`. -/
theorem c4_witness :
    ((processInstruction c4St 3 c4Entry).func.blocks 9).instructions
      = (c4St.func.blocks 9).instructions
          ++ [⟨(transformToUncheckedFromLoopBounds c4St.toContext c4St.func.dfg
                  c4Entry.instr).mapValues c4St.inserter.resolve,
              (List.range c4Entry.results.length).map fun i => c4St.inserter.nextId + i⟩] := by
  have h := c4_classification_and_placement.2 c4St 3 c4Entry 9 rfl (by decide)
  exact h.1 (by decide)

/-! ## Claim C8 -/

/-- C8: when an instruction classified hoistable is a `MakeArray` and the
function runs in the reference-counted brillig mode, an `IncrementRc` on the
instruction's (first) result is appended at the instruction's original
block; in any other mode — or for any other instruction kind — the original
block receives no such increment from a hoisted instruction. -/
theorem c8_inc_rc_on_hoisted_make_array :
    ∀ (st : PassState) (block : Nat) (e : InstrEntry) (ph : Nat),
      st.currentPreHeader = some ph → ph ≠ block →
      let instr' := transformToUncheckedFromLoopBounds st.toContext st.func.dfg e.instr
      let mapped := instr'.mapValues st.inserter.resolve
      let hoisted := canHoistInvariant st.toContext st.func.dfg mapped
      let st2 := processInstruction st block e
      (hoisted = true → st.func.dfg.runtimeIsBrillig = true → instr'.isMakeArray = true →
          (st2.func.blocks block).instructions
            = (st.func.blocks block).instructions
                ++ [⟨.incrementRc (e.results.headD 0), []⟩]) ∧
      (hoisted = true →
          (st.func.dfg.runtimeIsBrillig = false ∨ instr'.isMakeArray = false) →
          st2.func.blocks block = st.func.blocks block) := by
  intro st block e ph hp hne
  simp only
  simp only [processInstruction, hp, Option.getD_some]
  cases hh : canHoistInvariant st.toContext st.func.dfg
      ((transformToUncheckedFromLoopBounds st.toContext st.func.dfg e.instr).mapValues
        st.inserter.resolve) with
  | false => simp [hh]
  | true =>
      refine ⟨fun _ hbr hmk => ?_, fun _ hor => ?_⟩
      · simp [hh, hbr, hmk, extendValuesDefinedInLoopAndInvariants,
          PassState.pushInstructionTo, Inserter.pushInstruction, Func.appendInstruction,
          Ne.symm hne]
      · rcases hor with hbr | hmk
        · simp [hh, hbr, extendValuesDefinedInLoopAndInvariants,
            PassState.pushInstructionTo, Inserter.pushInstruction, Func.appendInstruction,
            Ne.symm hne]
        · simp [hh, hmk, extendValuesDefinedInLoopAndInvariants,
            PassState.pushInstructionTo, Inserter.pushInstruction, Func.appendInstruction,
            Ne.symm hne]




/-- C8, witness: hoisting a `MakeArray` out of block `3` of a brillig
function leaves an `IncrementRc` on its result at block `3`. -/
theorem c8_witness :
    ((processInstruction c8St 3 c8Entry).func.blocks 3).instructions
      = (c8St.func.blocks 3).instructions
          ++ [⟨.incrementRc (c8Entry.results.headD 0), []⟩] := by
  have h := c8_inc_rc_on_hoisted_make_array c8St 3 c8Entry 9 rfl (by decide)
  exact h.1 (by decide) rfl (by decide)

/-! ## Claim C6 -/

/-- C6: a loop whose pre-header lookup fails is skipped — the state
(function blocks included) is left completely unmodified by that loop's
worklist iteration — and processing of the remaining worklist continues
unaffected. -/
theorem c6_no_preheader_loop_skipped (st : PassState) (loop : LoopDesc)
    (loops : List LoopDesc) (h : loop.preHeaderResult = none) :
    processOneLoop st loop = st ∧
    processLoops st (loops ++ [loop]) = processLoops st loops := by
  have h1 : processOneLoop st loop = st := by
    unfold processOneLoop
    rw [h]
  refine ⟨h1, ?_⟩
  unfold processLoops
  rw [List.reverse_append]
  simp [h1]





/-- C6, witness: the skip equation evaluated at a concrete state and loop. -/
theorem c6_witness :
    processOneLoop c6St c6Loop = c6St ∧
    processLoops c6St ([] ++ [c6Loop]) = processLoops c6St [] :=
  c6_no_preheader_loop_skipped c6St c6Loop [] rfl

/-! ## Claim C7 -/

/-- C7: the checked-to-unchecked strengthening never converts an
already-unchecked binary operation (first conjunct), and an instruction
already rewritten by the strengthening is never rewritten again by a later
run, whatever analysis state that run carries (second conjunct). -/
theorem c7_strengthening_idempotent :
    (∀ (ctx : Context) (dfg : Dfg) (b : Binary), b.operator.isUnchecked = true →
        transformToUncheckedFromLoopBounds ctx dfg (.binary b) = .binary b) ∧
    (∀ (ctx ctx' : Context) (dfg dfg' : Dfg) (i : Instruction),
        transformToUncheckedFromLoopBounds ctx dfg i ≠ i →
        transformToUncheckedFromLoopBounds ctx' dfg'
            (transformToUncheckedFromLoopBounds ctx dfg i)
          = transformToUncheckedFromLoopBounds ctx dfg i) := by
  constructor
  · intro ctx dfg b h
    simp [transformToUncheckedFromLoopBounds, h]
  · intro ctx ctx' dfg dfg' i hne
    cases i with
    | binary b =>
        by_cases hg : (b.operator.isUnchecked
            || !canEvaluateBinaryOp dfg b ctx.currentInductionVariables) = true
        · exact absurd (by simp [transformToUncheckedFromLoopBounds, hg]) hne
        · have h1 : transformToUncheckedFromLoopBounds ctx dfg (.binary b)
              = .binary { b with operator := b.operator.intoUnchecked } := by
            simp [transformToUncheckedFromLoopBounds, hg]
          rw [h1]
          simp [transformToUncheckedFromLoopBounds, BinaryOp.isUnchecked_intoUnchecked]
    | arrayGet a j => exact absurd rfl hne
    | constrain l r => exact absurd rfl hne
    | constrainNotEqual l r => exact absurd rfl hne
    | rangeCheck v m => exact absurd rfl hne
    | makeArray es t => exact absurd rfl hne
    | incrementRc v => exact absurd rfl hne
    | other vs p => exact absurd rfl hne



/-- C7, witness: a checked `add v0, u32 1` with induction variable `v0`
bounded by `(0, 4)` is rewritten once (to `unchecked_add`), and running the
strengthening again on the result changes nothing. -/
theorem c7_witness :
    transformToUncheckedFromLoopBounds c7Ctx c7Dfg
        (transformToUncheckedFromLoopBounds c7Ctx c7Dfg (.binary ⟨0, 1, .add false⟩))
      = transformToUncheckedFromLoopBounds c7Ctx c7Dfg (.binary ⟨0, 1, .add false⟩) :=
  c7_strengthening_idempotent.2 c7Ctx c7Ctx c7Dfg c7Dfg (.binary ⟨0, 1, .add false⟩)
    (by decide)

/-! ## Claim C5 -/

/-- Processing an instruction never touches the sticky control-dependence
flag, the CFG, or the post-dominance frontiers. -/
theorem processInstruction_preserves (s : PassState) (block : Nat) (e : InstrEntry) :
    (processInstruction s block e).currentBlockControlDependent
        = s.currentBlockControlDependent
      ∧ (processInstruction s block e).cfg = s.cfg
      ∧ (processInstruction s block e).postDomFrontiers = s.postDomFrontiers := by
  simp only [processInstruction, extendValuesDefinedInLoopAndInvariants,
    PassState.pushInstructionTo]
  refine ⟨?_, ?_, ?_⟩ <;> (repeat' split) <;> rfl

/-- Folding instruction processing over a block's entries preserves the
flag, the CFG, and the post-dominance frontiers. -/
theorem foldl_processInstruction_preserves (entries : List InstrEntry) (block : Nat) :
    ∀ s : PassState,
      (entries.foldl (fun s' e => processInstruction s' block e) s).currentBlockControlDependent = s.currentBlockControlDependent
        ∧ (entries.foldl (fun s' e => processInstruction s' block e) s).cfg = s.cfg
        ∧ (entries.foldl (fun s' e => processInstruction s' block e) s).postDomFrontiers = s.postDomFrontiers := by
  induction entries with
  | nil => intro s; exact ⟨rfl, rfl, rfl⟩
  | cons e es ih =>
      intro s
      simp only [List.foldl_cons]
      obtain ⟨ih1, ih2, ih3⟩ := ih (processInstruction s block e)
      obtain ⟨p1, p2, p3⟩ := processInstruction_preserves s block e
      exact ⟨ih1.trans p1, ih2.trans p2, ih3.trans p3⟩

/-- The per-block control-dependence update: sticky disjunction with the
path-restricted frontier test. -/
theorem isControlDependentPostPreHeader_flag (s : PassState) (loop : LoopDesc)
    (block : Nat) :
    (isControlDependentPostPreHeader s loop block).currentBlockControlDependent
        = (s.currentBlockControlDependent
            || (findBlocksInLoop s.cfg loop.header block).any fun predecessor =>
                 predecessor ≠ block && predecessor ≠ loop.header
                   && isControlDependent s.postDomFrontiers predecessor block)
      ∧ (isControlDependentPostPreHeader s loop block).cfg = s.cfg
      ∧ (isControlDependentPostPreHeader s loop block).postDomFrontiers
          = s.postDomFrontiers
      ∧ (isControlDependentPostPreHeader s loop block).func = s.func := by
  simp only [isControlDependentPostPreHeader]
  split
  · rename_i h
    refine ⟨?_, rfl, rfl, rfl⟩
    rw [h, Bool.or_true]
  · rename_i h
    refine ⟨?_, rfl, rfl, rfl⟩
    rw [Bool.not_eq_true] at h
    rw [h, Bool.or_false]

/-- A whole block's processing ORs the flag with the block's control
dependence and preserves the CFG and frontiers. -/
theorem processBlock_flag (s : PassState) (loop : LoopDesc) (block : Nat) :
    ((processBlock s loop block).currentBlockControlDependent
        = (s.currentBlockControlDependent
            || (findBlocksInLoop s.cfg loop.header block).any fun predecessor =>
                 predecessor ≠ block && predecessor ≠ loop.header
                   && isControlDependent s.postDomFrontiers predecessor block))
      ∧ (processBlock s loop block).cfg = s.cfg
      ∧ (processBlock s loop block).postDomFrontiers = s.postDomFrontiers := by
  unfold processBlock
  obtain ⟨h1, h2, h3, _⟩ := isControlDependentPostPreHeader_flag s loop block
  obtain ⟨f1, f2, f3⟩ :=
    foldl_processInstruction_preserves
      ((isControlDependentPostPreHeader s loop block).func.blocks block).instructions block
      { isControlDependentPostPreHeader s loop block with
          func := (isControlDependentPostPreHeader s loop block).func.setInstructions block [] }
  exact ⟨f1.trans h1, f2.trans h2, f3.trans h3⟩

/-- Recording induction-variable bounds does not touch the flag, the CFG,
or the frontiers. -/
theorem setInductionVarBounds_preserves (st : PassState) (loop : LoopDesc) (cur : Bool) :
    (setInductionVarBounds st loop cur).currentBlockControlDependent
        = st.currentBlockControlDependent
      ∧ (setInductionVarBounds st loop cur).cfg = st.cfg
      ∧ (setInductionVarBounds st loop cur).postDomFrontiers = st.postDomFrontiers := by
  unfold setInductionVarBounds
  refine ⟨?_, ?_, ?_⟩ <;> (repeat' split) <;> rfl

/-- Initializing the per-loop state resets the flag and keeps the CFG and
frontiers. -/
theorem setValuesDefinedInLoop_resets (st : PassState) (loop : LoopDesc) :
    (setValuesDefinedInLoop st loop).currentBlockControlDependent = false
      ∧ (setValuesDefinedInLoop st loop).cfg = st.cfg
      ∧ (setValuesDefinedInLoop st loop).postDomFrontiers = st.postDomFrontiers := by
  unfold setValuesDefinedInLoop
  obtain ⟨_, h2, h3⟩ := setInductionVarBounds_preserves
    { st with definedInLoop := [], loopInvariants := [], currentInductionVariables := [] }
    loop true
  exact ⟨rfl, h2, h3⟩

/-- Folding block processing accumulates the sticky flag as a disjunction
over the blocks processed so far. -/
theorem foldl_processBlock_flag (loop : LoopDesc) (bs : List Nat) :
    ∀ s : PassState,
      ((bs.foldl (fun s' b => processBlock s' loop b) s).currentBlockControlDependent
          = (s.currentBlockControlDependent
              || bs.any fun block =>
                   (findBlocksInLoop s.cfg loop.header block).any fun predecessor =>
                     predecessor ≠ block && predecessor ≠ loop.header
                       && isControlDependent s.postDomFrontiers predecessor block))
        ∧ ((bs.foldl (fun s' b => processBlock s' loop b) s).cfg = s.cfg)
        ∧ ((bs.foldl (fun s' b => processBlock s' loop b) s).postDomFrontiers
            = s.postDomFrontiers) := by
  induction bs with
  | nil => intro s; simp
  | cons b bs ih =>
      intro s
      simp only [List.foldl_cons, List.any_cons]
      obtain ⟨ih1, ih2, ih3⟩ := ih (processBlock s loop b)
      obtain ⟨p1, p2, p3⟩ := processBlock_flag s loop b
      refine ⟨?_, ih2.trans p2, ih3.trans p3⟩
      rw [ih1, p1, p2, p3, Bool.or_assoc]

/-- C5: the sticky control-dependence flag is reset to false when a loop's
processing begins, and after processing any prefix of the loop's blocks it
is true exactly when some already-processed block is control-dependent
(`parent ∈ PDF(block)`, with a missing frontier meaning not dependent) on a
block on a path from the loop header to it, the block itself and the header
excluded. -/
theorem c5_sticky_flag_exact (st : PassState) (loop : LoopDesc) (bs : List Nat) :
    (setValuesDefinedInLoop st loop).currentBlockControlDependent = false
      ∧ (bs.foldl (fun s b => processBlock s loop b) (setValuesDefinedInLoop st loop)).currentBlockControlDependent
          = bs.any fun block =>
              (findBlocksInLoop st.cfg loop.header block).any fun predecessor =>
                predecessor ≠ block && predecessor ≠ loop.header
                  && isControlDependent st.postDomFrontiers predecessor block := by
  obtain ⟨r1, r2, r3⟩ := setValuesDefinedInLoop_resets st loop
  refine ⟨r1, ?_⟩
  obtain ⟨f1, _, _⟩ := foldl_processBlock_flag loop bs (setValuesDefinedInLoop st loop)
  rw [f1, r1, r2, r3, Bool.false_or]

/-! ## Claim C9 -/

/-- A key absent from an extended association list is absent from its
prefix. -/
theorem lookup_eq_none_of_append {m extra : List (Nat × Nat)} {v : Nat}
    (h : List.lookup v (m ++ extra) = none) : List.lookup v m = none := by
  induction m with
  | nil => rfl
  | cons a l ih =>
      rw [List.cons_append, List.lookup] at h
      rw [List.lookup]
      split at h
      · exact h
      · exact ih h

/-- A successful lookup exhibits a member of the association list. -/
theorem mem_of_lookup_eq_some {m : List (Nat × Nat)} {v w : Nat}
    (h : List.lookup v m = some w) : (v, w) ∈ m := by
  induction m with
  | nil => simp [List.lookup] at h
  | cons a l ih =>
      rw [List.lookup] at h
      split at h
      · rename_i hbeq
        simp only [Option.some.injEq] at h
        have hva : v = a.1 := by simpa using hbeq
        exact List.mem_cons.2 (Or.inl (by rw [hva, ← h]))
      · exact List.mem_cons.2 (Or.inr (ih h))

/-- Removing a member that fails the predicate strictly shrinks a filter. -/
theorem length_filter_lt_of_mem_not {α : Type} (l : List α) (p : α → Bool)
    (x : α) (hx : x ∈ l) (hpx : p x = false) : (l.filter p).length < l.length := by
  induction l with
  | nil => cases hx
  | cons a l ih =>
      rcases List.mem_cons.1 hx with hx | hx
      · subst hx
        rw [List.filter_cons, hpx]
        exact Nat.lt_succ_of_le (List.length_filter_le p l)
      · rw [List.filter_cons]
        split
        · simpa using Nat.succ_lt_succ (ih hx)
        · exact Nat.lt_succ_of_lt (ih hx)

/-- Chain-following in an increasing map lands outside the map's keys,
provided the fuel exceeds the number of keys at or above the start. -/
theorem resolveFuel_lookup_none (m : List (Nat × Nat))
    (hm : ∀ p ∈ m, p.1 < p.2) :
    ∀ (fuel : Nat) (v : Nat), (m.filter fun p => v ≤ p.1).length < fuel →
      List.lookup (resolveFuel m fuel v) m = none := by
  intro fuel
  induction fuel with
  | zero => intro v h; exact absurd h (Nat.not_lt_zero _)
  | succ n ih =>
      intro v h
      unfold resolveFuel resolveStep
      cases hlk : List.lookup v m with
      | none => exact hlk
      | some w =>
          apply ih
          have hvw : v < w := hm (v, w) (mem_of_lookup_eq_some hlk)
          have hsub : m.filter (fun p => w ≤ p.1)
              = (m.filter fun p => v ≤ p.1).filter (fun p => w ≤ p.1) := by
            rw [List.filter_filter]
            apply List.filter_congr
            intro p hp
            by_cases hw : w ≤ p.1
            · have hv : v ≤ p.1 := le_of_lt (lt_of_lt_of_le hvw hw)
              simp [hw, hv]
            · simp [hw]
          have hmem : (v, w) ∈ m.filter fun p => v ≤ p.1 :=
            List.mem_filter.2 ⟨mem_of_lookup_eq_some hlk, by simp⟩
          have hlt := length_filter_lt_of_mem_not (m.filter fun p => v ≤ p.1)
            (fun p => w ≤ p.1) (v, w) hmem (by simp [Nat.not_le.2 hvw])
          rw [hsub]
          omega

/-- The resolved image of any value is never itself a key of an increasing
substitution map: following the chain always terminates at a fresh id or an
unmapped value. -/
theorem lookup_resolve_eq_none (ins : Inserter) (hInc : ins.Increasing) (v : Nat) :
    List.lookup (ins.resolve v) ins.valueMap = none := by
  apply resolveFuel_lookup_none ins.valueMap hInc
  exact Nat.lt_succ_of_le (List.length_filter_le _ ins.valueMap)

/-- Membership in a zip of a list with an offset id range. -/
theorem mem_zip_range_offset :
    ∀ (as : List Nat) (n : Nat) (p : Nat × Nat),
      p ∈ as.zip ((List.range as.length).map fun i => n + i) →
      p.1 ∈ as ∧ n ≤ p.2 ∧ p.2 < n + as.length := by
  intro as
  induction as with
  | nil => intro n p h; simp at h
  | cons a as ih =>
      intro n p h
      rw [List.length_cons, List.range_succ_eq_map, List.map_cons, List.map_map,
        List.zip_cons_cons] at h
      rw [List.length_cons]
      rcases List.mem_cons.1 h with h | h
      · subst h
        exact ⟨List.mem_cons_self a as, Nat.le_add_right n 0,
          by show n + 0 < n + (as.length + 1); omega⟩
      · have hmap : (List.map ((fun i => n + i) ∘ Nat.succ) (List.range as.length))
            = (List.range as.length).map fun i => (n + 1) + i := by
          apply List.map_congr_left
          intro i _
          show n + (i + 1) = (n + 1) + i
          omega
        rw [hmap] at h
        obtain ⟨h1, h2, h3⟩ := ih (n + 1) p h
        exact ⟨List.mem_cons_of_mem a h1, by omega, by omega⟩

/-- The substitution entries and fresh-id supply after one `push_instruction`. -/
theorem pushInstruction_valueMap (ins : Inserter) (e : InstrEntry) :
    (ins.pushInstruction e).1.valueMap
        = ins.valueMap ++ e.results.zip ((List.range e.results.length).map
            fun i => ins.nextId + i)
      ∧ (ins.pushInstruction e).1.nextId = ins.nextId + e.results.length := ⟨rfl, rfl⟩

/-- One `push_instruction` preserves the engine's well-formedness and only
extends the substitution map. -/
theorem pushInstruction_inv (ins : Inserter) (e : InstrEntry)
    (hInc : ins.Increasing) (hB : ins.BoundedBy)
    (hres : ∀ r ∈ e.results, r < ins.nextId) :
    (ins.pushInstruction e).1.Increasing ∧ (ins.pushInstruction e).1.BoundedBy
      ∧ ins.nextId ≤ (ins.pushInstruction e).1.nextId
      ∧ List.IsPrefix ins.valueMap (ins.pushInstruction e).1.valueMap := by
  obtain ⟨hmap, hnext⟩ := pushInstruction_valueMap ins e
  refine ⟨?_, ?_, ?_, ?_⟩
  · intro p hp
    rw [hmap] at hp
    rcases List.mem_append.1 hp with hp | hp
    · exact hInc p hp
    · obtain ⟨h1, h2, _⟩ := mem_zip_range_offset e.results ins.nextId p hp
      exact lt_of_lt_of_le (hres p.1 h1) h2
  · intro p hp
    rw [hmap] at hp
    refine Eq.mpr (by rw [hnext]) ?_
    rcases List.mem_append.1 hp with hp | hp
    · obtain ⟨h1, h2⟩ := hB p hp
      omega
    · obtain ⟨h1, h2, h3⟩ := mem_zip_range_offset e.results ins.nextId p hp
      have h4 := hres p.1 h1
      omega
  · rw [hnext]
    exact Nat.le_add_right _ _
  · rw [hmap]; exact List.prefix_append _ _

/-- The operands of a pushed entry are the resolved images of the original
operands. -/
theorem pushInstruction_snd_values (ins : Inserter) (e : InstrEntry) :
    ((ins.pushInstruction e).2).instr.values = e.instr.values.map ins.resolve
      ∧ ((ins.pushInstruction e).2).results
          = (List.range e.results.length).map fun i => ins.nextId + i :=
  ⟨Instruction.values_mapValues e.instr ins.resolve, rfl⟩

/-- Pushing a list of entries preserves well-formedness, extends the map,
and yields entries whose operands are not keys of the starting map and whose
results stay below the final fresh-id supply. -/
theorem pushEntries_inv :
    ∀ (entries : List InstrEntry) (ins : Inserter),
      ins.Increasing → ins.BoundedBy →
      (∀ e ∈ entries, ∀ r ∈ e.results, r < ins.nextId) →
      (ins.pushEntries entries).1.Increasing
        ∧ (ins.pushEntries entries).1.BoundedBy
        ∧ ins.nextId ≤ (ins.pushEntries entries).1.nextId
        ∧ List.IsPrefix ins.valueMap (ins.pushEntries entries).1.valueMap
        ∧ (∀ e' ∈ (ins.pushEntries entries).2, ∀ v ∈ e'.instr.values,
            List.lookup v ins.valueMap = none)
        ∧ (∀ e' ∈ (ins.pushEntries entries).2, ∀ r ∈ e'.results,
            r < (ins.pushEntries entries).1.nextId) := by
  intro entries
  induction entries with
  | nil =>
      intro ins hInc hB hres
      exact ⟨hInc, hB, Nat.le_refl _, List.prefix_rfl, by simp [Inserter.pushEntries],
        by simp [Inserter.pushEntries]⟩
  | cons e es ih =>
      intro ins hInc hB hres
      obtain ⟨pInc, pB, pNext, pPre⟩ := pushInstruction_inv ins e hInc hB
        (hres e (List.mem_cons_self e es))
      have hres' : ∀ e' ∈ es, ∀ r ∈ e'.results, r < (ins.pushInstruction e).1.nextId :=
        fun e' he' r hr => lt_of_lt_of_le (hres e' (List.mem_cons_of_mem e he') r hr) pNext
      obtain ⟨iInc, iB, iNext, iPre, iVals, iRes⟩ := ih (ins.pushInstruction e).1 pInc pB hres'
      have hstep : ins.pushEntries (e :: es)
          = (((ins.pushInstruction e).1.pushEntries es).1,
             (ins.pushInstruction e).2 :: ((ins.pushInstruction e).1.pushEntries es).2) := rfl
      rw [hstep]
      refine ⟨iInc, iB, le_trans pNext iNext, pPre.trans iPre, ?_, ?_⟩
      · intro e' he' v hv
        rcases List.mem_cons.1 he' with he' | he'
        · subst he'
          rw [(pushInstruction_snd_values ins e).1] at hv
          obtain ⟨u, _, hu⟩ := List.mem_map.1 hv
          rw [← hu]
          exact lookup_resolve_eq_none ins hInc u
        · have := iVals e' he' v hv
          obtain ⟨extra, hextra⟩ := pPre
          rw [← hextra] at this
          exact lookup_eq_none_of_append this
      · intro e' he' r hr
        rcases List.mem_cons.1 he' with he' | he'
        · subst he'
          rw [(pushInstruction_snd_values ins e).2] at hr
          obtain ⟨i, hi, hri⟩ := List.mem_map.1 hr
          rw [List.mem_range] at hi
          have hnext := (pushInstruction_valueMap ins e).2
          show r < ((ins.pushInstruction e).1.pushEntries es).1.nextId
          omega
        · exact iRes e' he' r hr

/-- The instruction loop of one block of the global consistency pass equals
`pushEntries`: the engine advances accordingly, the target block accumulates
exactly the pushed entries, and no other block or the data-flow facts
change. -/
theorem foldl_pushInstructionTo_spec (entries : List InstrEntry) (block : Nat) :
    ∀ s : PassState,
      (entries.foldl (fun s' e => s'.pushInstructionTo e block) s).inserter
          = (s.inserter.pushEntries entries).1
        ∧ (entries.foldl (fun s' e => s'.pushInstructionTo e block) s).func.blocks block
            = { s.func.blocks block with
                  instructions := (s.func.blocks block).instructions
                    ++ (s.inserter.pushEntries entries).2 }
        ∧ (∀ c, c ≠ block →
            (entries.foldl (fun s' e => s'.pushInstructionTo e block) s).func.blocks c
              = s.func.blocks c)
        ∧ (entries.foldl (fun s' e => s'.pushInstructionTo e block) s).func.dfg
            = s.func.dfg := by
  induction entries with
  | nil =>
      intro s
      exact ⟨rfl, by simp [Inserter.pushEntries], fun c _ => rfl, rfl⟩
  | cons e es ih =>
      intro s
      simp only [List.foldl_cons]
      obtain ⟨ih1, ih2, ih3, ih4⟩ := ih (s.pushInstructionTo e block)
      have hpush1 : (s.pushInstructionTo e block).inserter = (s.inserter.pushInstruction e).1 :=
        rfl
      have hpushb : (s.pushInstructionTo e block).func.blocks block
          = { s.func.blocks block with
                instructions := (s.func.blocks block).instructions
                  ++ [(s.inserter.pushInstruction e).2] } := by
        simp [PassState.pushInstructionTo, Func.appendInstruction]
      have hpushc : ∀ c, c ≠ block →
          (s.pushInstructionTo e block).func.blocks c = s.func.blocks c := by
        intro c hc
        simp [PassState.pushInstructionTo, Func.appendInstruction, hc]
      refine ⟨?_, ?_, ?_, ?_⟩
      · rw [ih1, hpush1]; rfl
      · rw [ih2, hpushb, hpush1]
        have hse : (s.inserter.pushEntries (e :: es)).2
            = (s.inserter.pushInstruction e).2
                :: ((s.inserter.pushInstruction e).1.pushEntries es).2 := rfl
        simp [hse, List.append_assoc]
      · intro c hc
        rw [ih3 c hc, hpushc c hc]
      · rw [ih4]; rfl

/-- One block of the global consistency pass: the engine advances by
`pushEntries` on the block's entries, the block's instructions become the
pushed entries and its terminator is resolved through the advanced engine,
and every other block is untouched. -/
theorem mapBlockDependent_spec (s : PassState) (block : Nat) :
    (mapBlockDependent s block).inserter
        = (s.inserter.pushEntries (s.func.blocks block).instructions).1
      ∧ (mapBlockDependent s block).func.blocks block
          = { s.func.blocks block with
                instructions :=
                  (s.inserter.pushEntries (s.func.blocks block).instructions).2,
                terminator := (s.func.blocks block).terminator.map
                  ((s.inserter.pushEntries (s.func.blocks block).instructions).1).resolve }
      ∧ (∀ c, c ≠ block → (mapBlockDependent s block).func.blocks c = s.func.blocks c)
      ∧ (mapBlockDependent s block).func.dfg = s.func.dfg := by
  unfold mapBlockDependent
  set s0 : PassState := { s with func := s.func.setInstructions block [] } with hs0
  have hs0b : s0.func.blocks block = { s.func.blocks block with instructions := [] } := by
    simp [hs0, Func.setInstructions]
  have hs0c : ∀ c, c ≠ block → s0.func.blocks c = s.func.blocks c := by
    intro c hc
    simp [hs0, Func.setInstructions, hc]
  have hs0i : s0.inserter = s.inserter := rfl
  obtain ⟨f1, f2, f3, f4⟩ :=
    foldl_pushInstructionTo_spec (s.func.blocks block).instructions block s0
  refine ⟨?_, ?_, ?_, ?_⟩
  · rw [mapTerminatorInPlace, f1, hs0i]
  · rw [mapTerminatorInPlace]
    simp only [Func.setTerminator]
    rw [f2, hs0b, hs0i, f1, hs0i]
    simp
  · intro c hc
    rw [mapTerminatorInPlace]
    simp only [Func.setTerminator]
    rw [if_neg hc]
    rw [f3 c hc, hs0c c hc]
  · exact f4

/-- One block of the global consistency pass preserves the engine
well-formedness invariant and only extends the substitution map. -/
theorem mapBlockDependent_wf (s : PassState) (block : Nat) (h : StateWF s) :
    StateWF (mapBlockDependent s block)
      ∧ List.IsPrefix s.inserter.valueMap (mapBlockDependent s block).inserter.valueMap
      ∧ s.inserter.nextId ≤ (mapBlockDependent s block).inserter.nextId := by
  obtain ⟨hInc, hB, hRes⟩ := h
  obtain ⟨m1, m2, m3, _⟩ := mapBlockDependent_spec s block
  obtain ⟨pInc, pB, pNext, pPre, _, pRes⟩ :=
    pushEntries_inv (s.func.blocks block).instructions s.inserter hInc hB
      (fun e he r hr => hRes block e he r hr)
  refine ⟨⟨?_, ?_, ?_⟩, ?_, ?_⟩
  · rw [m1]; exact pInc
  · rw [m1]; exact pB
  · intro c e he r hr
    rw [m1]
    by_cases hc : c = block
    · subst hc
      rw [m2] at he
      exact pRes e he r hr
    · rw [m3 c hc] at he
      exact lt_of_lt_of_le (hRes c e he r hr) (by rw [m1] at *; exact pNext)
  · rw [m1]; exact pPre
  · rw [m1]; exact pNext

/-- Blocks outside the visited list are untouched by the global consistency
pass. -/
theorem mapDependentInstructions_untouched (l : List Nat) (b : Nat) (hb : b ∉ l) :
    ∀ s : PassState, (mapDependentInstructions s l).func.blocks b = s.func.blocks b := by
  induction l with
  | nil => intro s; rfl
  | cons c l ih =>
      intro s
      have hbc : b ≠ c := fun h => hb (h ▸ List.mem_cons_self c l)
      have hbl : b ∉ l := fun h => hb (List.mem_cons_of_mem c h)
      show (mapDependentInstructions (mapBlockDependent s c) l).func.blocks b = _
      rw [ih hbl (mapBlockDependent s c), (mapBlockDependent_spec s c).2.2.1 b hbc]

/-- The global consistency pass preserves the engine well-formedness
invariant and only extends the substitution map. -/
theorem mapDependentInstructions_wf (l : List Nat) :
    ∀ s : PassState, StateWF s →
      StateWF (mapDependentInstructions s l)
        ∧ List.IsPrefix s.inserter.valueMap (mapDependentInstructions s l).inserter.valueMap := by
  induction l with
  | nil => intro s h; exact ⟨h, List.prefix_rfl⟩
  | cons c l ih =>
      intro s h
      obtain ⟨h1, h2, _⟩ := mapBlockDependent_wf s c h
      obtain ⟨ih1, ih2⟩ := ih (mapBlockDependent s c) h1
      exact ⟨ih1, h2.trans ih2⟩

/-- C9: along the supplied reverse post-order, a block appearing once in the
order is untouched before its visit (first conjunct), is rewritten exactly
once — every remaining instruction re-inserted with its operands resolved
through the substitution map as of the visit, the terminator remapped
through the engine after those re-insertions (second conjunct) — and,
provided the rewrite engine is well-formed (increasing, bounded map and
bounded result ids), no value mentioned by the block's final instructions
or terminator is still subject to a substitution recorded before the pass:
no stale id for a hoisted or re-inserted definition survives (third
conjunct). -/
theorem c9_global_consistency (st : PassState) (l₁ l₂ : List Nat) (b : Nat)
    (hb1 : b ∉ l₁) (hb2 : b ∉ l₂) :
    (mapDependentInstructions st l₁).func.blocks b = st.func.blocks b
      ∧ (mapDependentInstructions st (l₁ ++ b :: l₂)).func.blocks b
          = { st.func.blocks b with
                instructions :=
                  ((mapDependentInstructions st l₁).inserter.pushEntries
                    (st.func.blocks b).instructions).2,
                terminator := (st.func.blocks b).terminator.map
                  (((mapDependentInstructions st l₁).inserter.pushEntries
                    (st.func.blocks b).instructions).1).resolve }
      ∧ (StateWF st →
          ∀ v ∈ blockValues ((mapDependentInstructions st (l₁ ++ b :: l₂)).func.blocks b),
            List.lookup v st.inserter.valueMap = none) := by
  have hsplit : mapDependentInstructions st (l₁ ++ b :: l₂)
      = mapDependentInstructions
          (mapBlockDependent (mapDependentInstructions st l₁) b) l₂ := by
    unfold mapDependentInstructions
    rw [List.foldl_append, List.foldl_cons]
  have h1 : (mapDependentInstructions st l₁).func.blocks b = st.func.blocks b :=
    mapDependentInstructions_untouched l₁ b hb1 st
  set stV := mapDependentInstructions st l₁ with hstV
  obtain ⟨m1, m2, _, _⟩ := mapBlockDependent_spec stV b
  have hfinal : (mapDependentInstructions st (l₁ ++ b :: l₂)).func.blocks b
      = (mapBlockDependent stV b).func.blocks b := by
    rw [hsplit]
    exact mapDependentInstructions_untouched l₂ b hb2 (mapBlockDependent stV b)
  have h2 : (mapDependentInstructions st (l₁ ++ b :: l₂)).func.blocks b
      = { st.func.blocks b with
            instructions := (stV.inserter.pushEntries (st.func.blocks b).instructions).2,
            terminator := (st.func.blocks b).terminator.map
              ((stV.inserter.pushEntries (st.func.blocks b).instructions).1).resolve } := by
    rw [hfinal, m2, h1]
  refine ⟨h1, h2, ?_⟩
  intro hwf v hv
  obtain ⟨wf1, wfPre⟩ := mapDependentInstructions_wf l₁ st hwf
  obtain ⟨vInc, vB, vRes⟩ := wf1
  obtain ⟨pInc, pB, pNext, pPre, pVals, pRes⟩ :=
    pushEntries_inv (st.func.blocks b).instructions stV.inserter vInc vB
      (fun e he r hr => by
        rw [← h1] at he
        exact vRes b e he r hr)
  rw [h2] at hv
  unfold blockValues at hv
  rcases List.mem_append.1 hv with hv | hv
  · obtain ⟨e', he', hve⟩ := List.mem_flatMap.1 hv
    have hnone := pVals e' he' v hve
    obtain ⟨extra, hextra⟩ := wfPre
    rw [← hextra] at hnone
    exact lookup_eq_none_of_append hnone
  · obtain ⟨t, _, ht⟩ := List.mem_map.1 hv
    rw [← ht]
    have hnone := lookup_resolve_eq_none
      ((stV.inserter.pushEntries (st.func.blocks b).instructions).1) pInc t
    have hchain : List.IsPrefix st.inserter.valueMap
        ((stV.inserter.pushEntries (st.func.blocks b).instructions).1).valueMap :=
      wfPre.trans pPre
    obtain ⟨extra, hextra⟩ := hchain
    rw [← hextra] at hnone
    exact lookup_eq_none_of_append hnone



/-- The concrete state `c9St` satisfies the engine invariant. -/
theorem c9St_wf : StateWF c9St := by
  refine ⟨?_, ?_, ?_⟩
  · intro p hp
    simp only [c9St, List.mem_singleton] at hp
    subst hp
    decide
  · intro p hp
    simp only [c9St, List.mem_singleton] at hp
    subst hp
    exact ⟨by decide, by decide⟩
  · intro c e he r hr
    by_cases hc : c = 2
    · subst hc
      simp [c9St, c9Block] at he
      subst he
      simp at hr
      subst hr
      decide
    · simp [c9St, c4EmptyBlock, hc] at he

/-- C9, witness: after the global consistency pass over the order
`[0, 2, 1]`, the value `7` mentioned by the rewritten block `2` (the
resolved image of the stale id `3`) is not subject to the pre-pass
substitution. -/
theorem c9_witness : List.lookup 7 c9St.inserter.valueMap = none :=
  (c9_global_consistency c9St [0] [1] 2 (by decide) (by decide)).2.2 c9St_wf 7 (by decide)

/-! ## Claim C10 -/

/-- C10: whenever a loop's constant bounds are statically known, the loop
header has at least one block parameter, so the induction-variable lookup
(which reads the header's first parameter) cannot hit its panic branch. -/
theorem c10_bounds_imply_induction_variable (f : Func) (loop : LoopDesc)
    (h : (getConstBounds f loop).isSome = true) :
    (f.blocks loop.header).parameters ≠ [] ∧
    (getInductionVariable f loop).isSome = true := by
  unfold getConstBounds at h
  cases hp : (f.blocks loop.header).parameters with
  | nil => rw [hp] at h; simp at h
  | cons a l =>
      refine ⟨by simp [hp], ?_⟩
      simp [getInductionVariable, hp]



/-- C10, witness: evaluated at a concrete function and loop with known
bounds. -/
theorem c10_witness :
    (c10Func.blocks c10Loop.header).parameters ≠ [] ∧
    (getInductionVariable c10Func c10Loop).isSome = true :=
  c10_bounds_imply_induction_variable c10Func c10Loop (by decide)

end LoopInvariant
